import Mathlib

/-!
Verification of the mhk-gpt RAG backend against its natural-language
specification.  The configuration and security layers are embedded from
`src/backend/app/core/config.py`, `src/backend/app/core/security.py` and
`src/backend/app/main.py`; the retrieval pipeline components (chunker,
embedding cache, MMR retriever, conversation memory, answer orchestrator)
are not present in the repository snapshot and are modelled from the spec
(sections 4.1 - 4.6), as marked on each definition.
-/

/- ===================================================================
   Settings — embedded from src/backend/app/core/config.py.
   Only the fields relevant to the verified properties are embedded;
   defaults follow the `Field(default=...)` declarations.  Float-valued
   settings are represented as rationals.
   =================================================================== -/

structure Settings where
  API_ENV : String := "development"
  COMPANY_NAME : String := "MHKTech"
  MAX_CONVERSATION_HISTORY : Nat := 10
  CHUNK_SIZE : Nat := 1000
  CHUNK_OVERLAP : Nat := 200
  SUPPORTED_FILE_TYPES : String := "pdf,docx,md,txt"
  MAX_FILE_SIZE_MB : Nat := 50
  RETRIEVAL_TOP_K : Nat := 5
  RETRIEVAL_FETCH_K : Nat := 20
  RETRIEVAL_LAMBDA_MULT : ℚ := 7/10
  CONVERSATION_MEMORY_TYPE : String := "buffer_window"
  CONVERSATION_MEMORY_K : Nat := 10
  SECRET_KEY : String := "change-me-in-production"
  CORS_ORIGINS : String := "http://localhost:3000,http://localhost:8000"
  ALLOWED_HOSTS : String := "*"
  RATE_LIMIT_CHAT : String := "10/minute"
  RATE_LIMIT_UPLOAD : String := "5/minute"
  CACHE_MAX_SIZE : Nat := 1000
  deriving DecidableEq

/-- `Settings.cors_origins_list` property from config.py: split
`CORS_ORIGINS` on commas (the `.strip()` of each piece is immaterial for
the properties below and is kept as-is). -/
def Settings.cors_origins_list (s : Settings) : List String :=
  (s.CORS_ORIGINS.splitOn ",").map (fun o => o.trim)

/-- `Settings.max_file_size_bytes` property from config.py:
`MAX_FILE_SIZE_MB * 1024 * 1024`. -/
def Settings.max_file_size_bytes (s : Settings) : Nat :=
  s.MAX_FILE_SIZE_MB * 1024 * 1024

/- ===================================================================
   CORS — embedded from src/backend/app/core/security.py
   (get_cors_config) and src/backend/app/main.py (middleware wiring).
   =================================================================== -/

structure CorsConfig where
  allow_origins : List String
  allow_credentials : Bool
  allow_methods : List String
  allow_headers : List String
  deriving DecidableEq

/-- `get_cors_config` from security.py.  The source function has the
process-wide `settings` object in scope (imported at module top) but its
body returns a constant dictionary and never reads any setting; the
`Settings` argument here stands for that ambient object. -/
def get_cors_config (_s : Settings) : CorsConfig :=
  { allow_origins := ["*"]
  , allow_credentials := true
  , allow_methods := ["*"]
  , allow_headers := ["*"] }

/-- main.py: `cors_config = get_cors_config()` followed by
`app.add_middleware(CORSMiddleware, **cors_config)` — the configuration
applied to the application is exactly the dictionary returned by
`get_cors_config`. -/
def appCorsConfig (s : Settings) : CorsConfig :=
  get_cors_config s

/- ===================================================================
   sanitize_input — embedded from src/backend/app/core/security.py.
   Text is modelled as List Char.
   =================================================================== -/

/-- Characters matched by the regex class `\s` (ASCII part), used both by
the character filter and by the trailing/leading `.strip()`. -/
def isPythonSpace (c : Char) : Bool :=
  c = ' ' || c = '\t' || c = '\n' || c = '\r' || c = Char.ofNat 11 || c = Char.ofNat 12

/-- Characters matched by the regex class `\w`: alphanumeric or
underscore. -/
def isWordChar (c : Char) : Bool :=
  c.isAlphanum || c = '_'

/-- The punctuation explicitly allowed by the regex in `sanitize_input`:
`\-.,!?:;()\[\]{}"'/` (braces and quotes written via their code points). -/
def allowedPunct : List Char :=
  ['-', '.', ',', '!', '?', ':', ';', '(', ')', '[', ']',
   Char.ofNat 123, Char.ofNat 125, Char.ofNat 34, Char.ofNat 39, '/']

/-- A character kept by `re.sub(r'[^\w\s\-.,!?:;()\[\]{}"\x27/]', '', text)`:
word characters, whitespace, or the allowed punctuation. -/
def allowedChar (c : Char) : Bool :=
  isWordChar c || isPythonSpace c || allowedPunct.contains c

/-- Drop trailing characters satisfying `p` (the right half of Python's
`str.strip()`). -/
def dropTrailing (p : Char → Bool) : List Char → List Char
  | [] => []
  | c :: cs =>
      let rest := dropTrailing p cs
      if rest = [] ∧ p c then [] else c :: rest

/-- Python's `str.strip()`: remove leading and trailing whitespace. -/
def pyStrip (l : List Char) : List Char :=
  dropTrailing isPythonSpace (l.dropWhile isPythonSpace)

/-- `sanitize_input` from security.py: raise `ValueError` when the input
exceeds `max_length` (default 10000), otherwise delete every character
outside the allowed class and strip surrounding whitespace. -/
def sanitize_input (text : List Char) (maxLength : Nat := 10000) :
    Except String (List Char) :=
  if text.length > maxLength then
    Except.error "Input too long."
  else
    Except.ok (pyStrip (text.filter allowedChar))

/- ===================================================================
   Chunker — not present in the repository snapshot.
   =================================================================== -/

/-- A chunk: `char_span` start/stop offsets into the document and the
chunk text (spec section 3, Chunk data model). -/
structure Chunk where
  start : Nat
  stop : Nat
  text : List Char
  deriving DecidableEq

/-- Modelled from the spec: the recursive chunking strategy of section
4.1 (the chunker module is not under src/).  At the character-separator
level the strategy is a sliding window: emit a window of `size`
characters, then advance by `step` (= size - overlap) so that the last
`overlap` characters of one chunk are copied into the start of the next;
a final piece of at most `size` characters is emitted as the last chunk.
`max 1 step` guarantees forward progress (section 4.1 edge cases). -/
def chunkAux (size step off : Nat) (doc : List Char) : List Chunk :=
  if _h : doc.length ≤ size then
    if doc = [] then [] else [⟨off, off + doc.length, doc⟩]
  else
    ⟨off, off + size, doc.take size⟩ ::
      chunkAux size step (off + max 1 step) (doc.drop (max 1 step))
termination_by doc.length
decreasing_by
  simp only [List.length_drop]
  omega

/-- Modelled from the spec: `chunk(document)` for the recursive strategy
with chunk size `size` and overlap `overlap` (spec sections 4.1 and 6). -/
def recursiveChunk (size overlap : Nat) (doc : List Char) : List Chunk :=
  chunkAux size (size - overlap) 0 doc

/-- Reconstruction of a document from its chunks (spec section 8): keep
the first chunk whole and drop the `overlap`-character prefix that every
later chunk copied from the end of its predecessor. -/
def reconstructChunks (overlap : Nat) : List Chunk → List Char
  | [] => []
  | c :: cs => c.text ++ (cs.map (fun k => k.text.drop overlap)).flatten

/- ===================================================================
   Conversation Memory — not present in the repository snapshot.
   =================================================================== -/

/-- Turn role (spec section 3, ConversationTurn). -/
inductive Role where
  | user
  | assistant
  deriving DecidableEq

/-- A conversation turn (spec section 3). -/
structure Turn where
  role : Role
  content : String
  deriving DecidableEq

/-- Keep the at most `k` most recent elements of a list (the retained
window). -/
def keepLast (k : Nat) (l : List Turn) : List Turn :=
  l.drop (l.length - k)

/-- Modelled from the spec: `append(conversation_id, turn)` for one
conversation (spec section 4.5) — append the turn and evict the oldest
turns (strict FIFO) so that at most `k` remain. -/
def appendTurn (k : Nat) (w : List Turn) (t : Turn) : List Turn :=
  keepLast k (w ++ [t])

/-- Appending a whole sequence of turns in order. -/
def appendTurns (k : Nat) (w : List Turn) (ts : List Turn) : List Turn :=
  ts.foldl (appendTurn k) w

/-- Modelled from the spec: the per-conversation store (spec section
4.5); unknown ids are fresh empty conversations. -/
structure Memory where
  convs : List (String × List Turn)
  deriving DecidableEq

/-- `window(conversation_id)`: the retained turns of a conversation. -/
def window (m : Memory) (cid : String) : List Turn :=
  ((m.convs.find? (fun e => e.1 = cid)).map (fun e => e.2)).getD []

/-- Replace (or create) the turn list of a conversation. -/
def setConv (m : Memory) (cid : String) (l : List Turn) : Memory :=
  if (m.convs.find? (fun e => e.1 = cid)).isSome then
    ⟨m.convs.map (fun e => if e.1 = cid then (cid, l) else e)⟩
  else
    ⟨(cid, l) :: m.convs⟩

/- ===================================================================
   Embedding Cache — not present in the repository snapshot.
   =================================================================== -/

/-- Cache key: deterministic fingerprint of (text, embedding-model id)
(spec section 3, EmbeddingCacheEntry). -/
structure CacheKey where
  text : String
  model : String
  deriving DecidableEq

/-- Modelled from the spec: the bounded LRU embedding cache (spec
section 4.2); entries are kept in recency order, most recent first. -/
structure Cache where
  entries : List (CacheKey × List ℚ)
  deriving DecidableEq

/-- Result of one `get_or_compute` call: the vector, the new cache
state, and how many provider calls were issued (0 or 1). -/
structure CacheResult where
  vec : List ℚ
  state : Cache
  providerCalls : Nat
  deriving DecidableEq

/-- Look a key up in the cache. -/
def lookupCache (c : Cache) (k : CacheKey) : Option (List ℚ) :=
  (c.entries.find? (fun e => e.1 = k)).map (fun e => e.2)

/-- Modelled from the spec: `get_or_compute(text, model_id)` (spec
section 4.2).  On a hit, return the cached vector with no provider call
and move the entry to the front (most recently used); on a miss, call
the provider, store the result at the front and evict the
least-recently-used entries beyond `cap`. -/
def getOrCompute (cap : Nat) (provider : String → String → List ℚ)
    (c : Cache) (text model : String) : CacheResult :=
  let k : CacheKey := ⟨text, model⟩
  match lookupCache c k with
  | some v =>
      ⟨v, ⟨(k, v) :: c.entries.filter (fun e => decide (e.1 ≠ k))⟩, 0⟩
  | none =>
      let v := provider text model
      ⟨v, ⟨((k, v) :: c.entries).take cap⟩, 1⟩

/- ===================================================================
   MMR Retriever — not present in the repository snapshot.
   =================================================================== -/

/-- A retrieval candidate: its original retrieval rank (position in the
similarity-ordered fetch) and its raw relevance score (spec section
4.4); scores are modelled as rationals. -/
structure Cand where
  rank : Nat
  relevance : ℚ
  deriving DecidableEq

/-- Maximum similarity of a candidate to the already-selected picks:
the true maximum of `sim c s` over the selected picks `s` (which may be
negative for cosine / inner-product scores); 0 only when nothing is
selected yet, where spec section 4.4's penalty term is vacuous. -/
def maxSimTo (sim : Cand → Cand → ℚ) (c : Cand) : List Cand → ℚ
  | [] => 0
  | s :: ss => (ss.map (sim c)).foldl max (sim c s)

/-- Strict lexicographic "beats" relation on the comparison keys
(score, then raw relevance, then original rank — smaller rank wins):
spec section 4.4 tie-breaking. -/
def gtLex (p q : ℚ × ℚ × Nat) : Prop :=
  q.1 < p.1 ∨ (p.1 = q.1 ∧ (q.2.1 < p.2.1 ∨ (p.2.1 = q.2.1 ∧ p.2.2 < q.2.2)))

instance (p q : ℚ × ℚ × Nat) : Decidable (gtLex p q) := by
  unfold gtLex
  infer_instance

/-- Pick the key-maximal candidate out of `b :: l` (first argument is
the running best). -/
def argmaxBy (key : Cand → ℚ × ℚ × Nat) (b : Cand) (l : List Cand) : Cand :=
  l.foldl (fun acc x => if gtLex (key x) (key acc) then x else acc) b

/-- Modelled from the spec: the iterative greedy selection loop of
section 4.4, generic in the per-step comparison key (which may depend on
the already-selected picks).  At each step the key-maximal unselected
candidate is picked and removed from the remaining pool. -/
def selectLoop (keyF : List Cand → Cand → ℚ × ℚ × Nat)
    (S R : List Cand) : Nat → List Cand
  | 0 => []
  | k + 1 =>
      match R with
      | [] => []
      | r :: rs =>
          let best := argmaxBy (keyF S) r rs
          best :: selectLoop keyF (S ++ [best]) ((r :: rs).erase best) k

/-- The MMR comparison key for one step (spec section 4.4): primary key
`lam * relevance - (1 - lam) * max_similarity(candidate, selected)`,
ties broken by higher raw relevance, then by original retrieval rank. -/
def mmrKey (lam : ℚ) (sim : Cand → Cand → ℚ) (S : List Cand) (c : Cand) :
    ℚ × ℚ × Nat :=
  (lam * c.relevance - (1 - lam) * maxSimTo sim c S, c.relevance, c.rank)

/-- Modelled from the spec: MMR re-ranking (spec section 4.4): select
`topK` of the candidates by iterating the greedy step. -/
def mmr (lam : ℚ) (sim : Cand → Cand → ℚ) (cands : List Cand)
    (topK : Nat) : List Cand :=
  selectLoop (mmrKey lam sim) [] cands topK

/-- Plain top-k-by-relevance ordering (spec section 8): repeatedly pick
the candidate of highest raw relevance, ties broken by original
retrieval rank.  This is the reference ordering MMR must coincide with
at lam = 1. -/
def topKByRelevance (cands : List Cand) (topK : Nat) : List Cand :=
  selectLoop (fun _ c => (c.relevance, c.relevance, c.rank)) [] cands topK

/- ===================================================================
   Answer Orchestrator — not present in the repository snapshot.
   =================================================================== -/

/-- Error taxonomy (spec section 7). -/
inductive AppError where
  | validationError (msg : String)
  | providerError (msg : String)
  | storeError (msg : String)
  deriving DecidableEq

/-- Modelled from the spec: prompt assembly (spec section 4.6) — system
preamble, retrieved chunk texts, conversation window, user message. -/
def assemblePrompt (preamble : String) (chunks : List String)
    (hist : List Turn) (userMsg : String) : String :=
  preamble ++ String.intercalate "\n" chunks
    ++ String.intercalate "\n" (hist.map (fun t => t.content)) ++ userMsg

/-- Modelled from the spec: `answer(conversation_id, user_message)`
(spec section 4.6).  Fetch the window, retrieve context, assemble the
prompt, invoke the injected LLM provider; only on success append the
user message and the produced answer to Conversation Memory.  A provider
failure is surfaced and the memory is left untouched. -/
def answer (k : Nat) (retrieve : String → List String)
    (llm : String → Except String String) (m : Memory) (cid : String)
    (userMsg : String) : Except AppError (String × Memory) :=
  let hist := window m cid
  let chunks := retrieve userMsg
  let prompt := assemblePrompt "system" chunks hist userMsg
  match llm prompt with
  | Except.error e => Except.error (AppError.providerError e)
  | Except.ok text =>
      let hist' := appendTurn k (appendTurn k hist ⟨Role.user, userMsg⟩)
        ⟨Role.assistant, text⟩
      Except.ok (text, setConv m cid hist')

/-- The memory state as seen by the caller after an `answer` call: the
new state on success, the old state when the call failed. -/
def memoryAfterAnswer (k : Nat) (retrieve : String → List String)
    (llm : String → Except String String) (m : Memory) (cid : String)
    (userMsg : String) : Memory :=
  match answer k retrieve llm m cid userMsg with
  | Except.ok r => r.2
  | Except.error _ => m

/- ===================================================================
   Input validation at the API boundary — the endpoint modules are not
   under src/; the guards they use (sanitize_input, max_file_size_bytes)
   are embedded from security.py / config.py above.
   =================================================================== -/

/-- Modelled from the spec: chat-endpoint validation (spec section 7) —
an empty query is rejected with a ValidationError, and `sanitize_input`
failures (oversized input) are mapped to ValidationError. -/
def chatValidate (query : List Char) : Except AppError (List Char) :=
  if query = [] then
    Except.error (AppError.validationError "Empty query")
  else
    match sanitize_input query with
    | Except.error msg => Except.error (AppError.validationError msg)
    | Except.ok q => Except.ok q

/-- Modelled from the spec: the chat endpoint runs its pipeline (which
issues `calls` external provider calls) only after validation passes;
the second component counts external calls actually made. -/
def chatEndpoint (run : List Char → String × Nat) (query : List Char) :
    Except AppError String × Nat :=
  match chatValidate query with
  | Except.error e => (Except.error e, 0)
  | Except.ok q => ((fun r => (Except.ok r.1, r.2)) (run q))

/-- Modelled from the spec: document-upload validation (spec section 7)
against `Settings.max_file_size_bytes` from config.py. -/
def uploadEndpoint (s : Settings) (run : Nat → String × Nat)
    (fileSize : Nat) : Except AppError String × Nat :=
  if s.max_file_size_bytes < fileSize then
    (Except.error (AppError.validationError "File too large"), 0)
  else
    ((fun r => (Except.ok r.1, r.2)) (run fileSize))

/- ===================================================================
   Helper lemmas: conversation window.
   =================================================================== -/

theorem suffix_eq_of_length {α : Type} {l₁ l₂ l : List α}
    (h₁ : l₁ <:+ l) (h₂ : l₂ <:+ l) (hlen : l₁.length = l₂.length) :
    l₁ = l₂ := by
  obtain ⟨t₁, ht₁⟩ := h₁
  obtain ⟨t₂, ht₂⟩ := h₂
  have hl : t₁ ++ l₁ = t₂ ++ l₂ := ht₁.trans ht₂.symm
  have hlt : t₁.length = t₂.length := by
    have := congrArg List.length hl
    simp only [List.length_append] at this
    omega
  exact (List.append_inj hl hlt).2

theorem keepLast_suffix (k : Nat) (l : List Turn) : keepLast k l <:+ l :=
  List.drop_suffix _ _

theorem keepLast_length (k : Nat) (l : List Turn) :
    (keepLast k l).length = min k l.length := by
  simp only [keepLast, List.length_drop]
  omega

theorem suffix_append_same {α : Type} {l₁ l₂ : List α} (h : l₁ <:+ l₂)
    (ts : List α) : l₁ ++ ts <:+ l₂ ++ ts := by
  obtain ⟨t, rfl⟩ := h
  exact ⟨t, (List.append_assoc t l₁ ts).symm⟩

theorem keepLast_append_keepLast (k : Nat) (w ts : List Turn) :
    keepLast k (keepLast k w ++ ts) = keepLast k (w ++ ts) := by
  apply suffix_eq_of_length (l := w ++ ts)
  · exact (keepLast_suffix _ _).trans (suffix_append_same (keepLast_suffix _ _) _)
  · exact keepLast_suffix _ _
  · simp only [keepLast_length, List.length_append]
    omega

theorem keepLast_of_le {k : Nat} {w : List Turn} (h : w.length ≤ k) :
    keepLast k w = w := by
  simp only [keepLast, Nat.sub_eq_zero_of_le h, List.drop_zero]

theorem appendTurn_length_le (k : Nat) (w : List Turn) (t : Turn) :
    (appendTurn k w t).length ≤ k := by
  simp only [appendTurn, keepLast_length]
  omega

theorem appendTurns_eq_keepLast (k : Nat) :
    ∀ (ts w : List Turn), w.length ≤ k →
      appendTurns k w ts = keepLast k (w ++ ts) := by
  intro ts
  induction ts with
  | nil =>
      intro w hw
      simp only [appendTurns, List.foldl_nil, List.append_nil]
      exact (keepLast_of_le hw).symm
  | cons t ts ih =>
      intro w hw
      have h₁ : appendTurns k w (t :: ts) = appendTurns k (appendTurn k w t) ts := by
        simp [appendTurns]
      rw [h₁, ih _ (appendTurn_length_le k w t)]
      show keepLast k (keepLast k (w ++ [t]) ++ ts) = _
      rw [keepLast_append_keepLast]
      simp

/- ===================================================================
   Helper lemmas: embedding cache.
   =================================================================== -/

theorem getOrCompute_hit {cap : Nat} {p : String → String → List ℚ}
    {c : Cache} {t m : String} {v : List ℚ}
    (h : lookupCache c ⟨t, m⟩ = some v) :
    getOrCompute cap p c t m =
      ⟨v, ⟨(⟨t, m⟩, v) :: c.entries.filter (fun e => decide (e.1 ≠ (⟨t, m⟩ : CacheKey)))⟩, 0⟩ := by
  simp only [getOrCompute, h]

theorem lookupCache_after (cap : Nat) (hcap : 1 ≤ cap)
    (p : String → String → List ℚ) (c : Cache) (t m : String) :
    lookupCache (getOrCompute cap p c t m).state ⟨t, m⟩ =
      some (getOrCompute cap p c t m).vec := by
  rcases hl : lookupCache c ⟨t, m⟩ with _ | v
  · rcases cap with _ | n
    · omega
    · simp only [getOrCompute, hl]
      simp [lookupCache, List.take_succ_cons, List.find?]
  · rw [getOrCompute_hit hl]
    simp [lookupCache, List.find?]

/- ===================================================================
   Helper lemmas: sanitize_input.
   =================================================================== -/

theorem mem_dropTrailing {p : Char → Bool} {l : List Char} {c : Char}
    (h : c ∈ dropTrailing p l) : c ∈ l := by
  induction l with
  | nil => simp [dropTrailing] at h
  | cons a as ih =>
      simp only [dropTrailing] at h
      split at h
      · simp at h
      · rcases List.mem_cons.mp h with rfl | hm
        · exact List.mem_cons_self _ _
        · exact List.mem_cons_of_mem _ (ih hm)

theorem getLast?_dropTrailing {p : Char → Bool} {l : List Char} {c : Char}
    (h : (dropTrailing p l).getLast? = some c) : p c = false := by
  induction l with
  | nil => simp [dropTrailing] at h
  | cons a as ih =>
      simp only [dropTrailing] at h
      split at h
      · simp at h
      · rename_i hcond
        rcases hrest : dropTrailing p as with _ | ⟨b, bs⟩
        · rw [hrest] at h
          simp only [List.getLast?_singleton, Option.some.injEq] at h
          subst h
          rw [hrest] at hcond
          simp only [true_and] at hcond
          simpa using hcond
        · rw [hrest] at h
          rw [List.getLast?_cons_cons] at h
          exact ih (by rw [hrest]; exact h)

theorem head?_dropTrailing {p : Char → Bool} {l : List Char} {c : Char}
    (h : (dropTrailing p l).head? = some c) : l.head? = some c := by
  cases l with
  | nil => simp [dropTrailing] at h
  | cons a as =>
      simp only [dropTrailing] at h
      split at h
      · simp at h
      · simp only [List.head?_cons, Option.some.injEq] at h
        simp [h]

theorem dropTrailing_idem (p : Char → Bool) (l : List Char) :
    dropTrailing p (dropTrailing p l) = dropTrailing p l := by
  induction l with
  | nil => simp [dropTrailing]
  | cons a as ih =>
      simp only [dropTrailing]
      split
      · simp [dropTrailing]
      · rename_i hcond
        simp only [dropTrailing, ih]
        rw [if_neg hcond]

theorem length_dropTrailing_le (p : Char → Bool) (l : List Char) :
    (dropTrailing p l).length ≤ l.length := by
  induction l with
  | nil => simp [dropTrailing]
  | cons a as ih =>
      simp only [dropTrailing]
      split
      · simp
      · simpa using ih

theorem head?_dropWhile_not {p : Char → Bool} {l : List Char} {c : Char}
    (h : (l.dropWhile p).head? = some c) : p c = false := by
  induction l with
  | nil => simp [List.dropWhile] at h
  | cons a as ih =>
      rcases hp : p a with _ | _
      · rw [List.dropWhile_cons_of_neg (by simp [hp])] at h
        simp only [List.head?_cons, Option.some.injEq] at h
        subst h
        exact hp
      · rw [List.dropWhile_cons_of_pos hp] at h
        exact ih h

theorem dropWhile_eq_self_of_head? {p : Char → Bool} {l : List Char}
    (h : ∀ c, l.head? = some c → p c = false) : l.dropWhile p = l := by
  cases l with
  | nil => rfl
  | cons a as =>
      have := h a (by simp)
      exact List.dropWhile_cons_of_neg (by simp [this])

theorem mem_pyStrip {l : List Char} {c : Char} (h : c ∈ pyStrip l) : c ∈ l :=
  (List.dropWhile_sublist _).mem (mem_dropTrailing h)

theorem pyStrip_head?_not_space {l : List Char} {c : Char}
    (h : (pyStrip l).head? = some c) : isPythonSpace c = false :=
  head?_dropWhile_not (head?_dropTrailing h)

theorem pyStrip_getLast?_not_space {l : List Char} {c : Char}
    (h : (pyStrip l).getLast? = some c) : isPythonSpace c = false :=
  getLast?_dropTrailing h

theorem pyStrip_idem (l : List Char) : pyStrip (pyStrip l) = pyStrip l := by
  unfold pyStrip
  rw [dropWhile_eq_self_of_head?
    (fun c hc => head?_dropWhile_not (head?_dropTrailing hc))]
  exact dropTrailing_idem _ _

theorem length_pyStrip_le (l : List Char) : (pyStrip l).length ≤ l.length :=
  le_trans (length_dropTrailing_le _ _) (List.dropWhile_sublist _).length_le

/- ===================================================================
   Helper lemmas: chunker.
   =================================================================== -/

theorem chunkAux_nil (size step off : Nat) :
    chunkAux size step off [] = [] := by
  rw [chunkAux]
  simp

theorem chunkAux_small {size : Nat} (step off : Nat) {doc : List Char}
    (hne : doc ≠ []) (hle : doc.length ≤ size) :
    chunkAux size step off doc = [⟨off, off + doc.length, doc⟩] := by
  rw [chunkAux]
  simp [hne, hle]

theorem chunkAux_large {size : Nat} (step off : Nat) {doc : List Char}
    (hgt : size < doc.length) :
    chunkAux size step off doc =
      ⟨off, off + size, doc.take size⟩ ::
        chunkAux size step (off + max 1 step) (doc.drop (max 1 step)) := by
  rw [chunkAux]
  simp [Nat.not_le_of_lt hgt]

/- ===================================================================
   Claim theorems.
   =================================================================== -/

/-- Claim C2: appending N+1 turns to an empty window of capacity N leaves
exactly the N most recent turns in original append order; and in general
the window after any append sequence is exactly the at-most-N most recent
of the appended turns (strict FIFO eviction — nothing else is dropped). -/
theorem conversation_window_fifo (N : Nat) (ts : List Turn)
    (h : ts.length = N + 1) :
    appendTurns N [] ts = ts.drop 1 ∧
    ∀ (w us : List Turn), w.length ≤ N →
      appendTurns N w us = keepLast N (w ++ us) := by
  constructor
  · rw [appendTurns_eq_keepLast N ts [] (by simp)]
    simp [keepLast, h]
  · intro w us hw
    exact appendTurns_eq_keepLast N us w hw

theorem conversation_window_fifo_witness :
    ([⟨Role.user, "q"⟩, ⟨Role.assistant, "a"⟩] : List Turn).length = 1 + 1 ∧
    appendTurns 1 [] [⟨Role.user, "q"⟩, ⟨Role.assistant, "a"⟩] =
      [⟨Role.assistant, "a"⟩] :=
  ⟨rfl, (conversation_window_fifo 1
    [⟨Role.user, "q"⟩, ⟨Role.assistant, "a"⟩] rfl).1⟩

/-- Claim C3: after one successful `get_or_compute` for (text, model), a
second call with the same key returns the same vector with zero provider
calls; and, in general, any later call made from a state in which the
entry is still present (not evicted) returns the cached vector with zero
provider calls. -/
theorem embedding_cache_no_second_call (cap : Nat) (hcap : 1 ≤ cap)
    (p : String → String → List ℚ) (c : Cache) (t m : String) :
    (getOrCompute cap p (getOrCompute cap p c t m).state t m).vec =
        (getOrCompute cap p c t m).vec ∧
    (getOrCompute cap p (getOrCompute cap p c t m).state t m).providerCalls
        = 0 ∧
    ∀ (c' : Cache),
      lookupCache c' ⟨t, m⟩ = some (getOrCompute cap p c t m).vec →
        (getOrCompute cap p c' t m).vec = (getOrCompute cap p c t m).vec ∧
        (getOrCompute cap p c' t m).providerCalls = 0 := by
  have hl := lookupCache_after cap hcap p c t m
  refine ⟨?_, ?_, ?_⟩
  · rw [getOrCompute_hit hl]
  · rw [getOrCompute_hit hl]
  · intro c' h'
    rw [getOrCompute_hit h']
    exact ⟨rfl, rfl⟩

theorem embedding_cache_no_second_call_witness :
    1 ≤ 1 ∧
    (getOrCompute 1 (fun _ _ => [(1 : ℚ)])
        (getOrCompute 1 (fun _ _ => [(1 : ℚ)]) ⟨[]⟩ "t" "m").state
        "t" "m").vec =
      (getOrCompute 1 (fun _ _ => [(1 : ℚ)]) ⟨[]⟩ "t" "m").vec :=
  ⟨le_refl 1,
   (embedding_cache_no_second_call 1 (le_refl 1) _ ⟨[]⟩ "t" "m").1⟩

/-- Claim C4: when the LLM provider call fails, `answer` surfaces a
ProviderError and the Conversation Memory is unchanged — a subsequent
`window` call returns exactly the turns present before. -/
theorem answer_provider_failure (k : Nat) (retrieve : String → List String)
    (llm : String → Except String String) (m : Memory)
    (cid userMsg : String) (e : String)
    (hfail : llm (assemblePrompt "system" (retrieve userMsg)
        (window m cid) userMsg) = Except.error e) :
    answer k retrieve llm m cid userMsg =
        Except.error (AppError.providerError e) ∧
    window (memoryAfterAnswer k retrieve llm m cid userMsg) cid =
        window m cid := by
  have ha : answer k retrieve llm m cid userMsg =
      Except.error (AppError.providerError e) := by
    simp only [answer, hfail]
  refine ⟨ha, ?_⟩
  simp only [memoryAfterAnswer, ha]

theorem answer_provider_failure_witness :
    ((fun _ : String => (Except.error "timeout" : Except String String))
        (assemblePrompt "system" ((fun _ : String => ([] : List String)) "hi")
          (window ⟨[]⟩ "c1") "hi") = Except.error "timeout") ∧
    answer 10 (fun _ => []) (fun _ => Except.error "timeout") ⟨[]⟩ "c1" "hi"
      = Except.error (AppError.providerError "timeout") :=
  ⟨rfl,
   (answer_provider_failure 10 (fun _ => []) _ ⟨[]⟩ "c1" "hi" "timeout"
      rfl).1⟩

/-- Claim C7: the recursive chunking strategy is deterministic — two runs
on the same document under the same configuration produce identical
chunk sequences (identical char_spans and texts); the embedding is a
pure function of (size, overlap, document) with no other input. -/
theorem recursive_chunk_deterministic (size₁ size₂ overlap₁ overlap₂ : Nat)
    (doc₁ doc₂ : List Char) (hs : size₁ = size₂) (ho : overlap₁ = overlap₂)
    (hd : doc₁ = doc₂) :
    recursiveChunk size₁ overlap₁ doc₁ = recursiveChunk size₂ overlap₂ doc₂ ∧
    (recursiveChunk size₁ overlap₁ doc₁).map (fun c => (c.start, c.stop)) =
      (recursiveChunk size₂ overlap₂ doc₂).map (fun c => (c.start, c.stop)) ∧
    (recursiveChunk size₁ overlap₁ doc₁).map Chunk.text =
      (recursiveChunk size₂ overlap₂ doc₂).map Chunk.text := by
  subst hs ho hd
  exact ⟨rfl, rfl, rfl⟩

theorem recursive_chunk_deterministic_witness :
    (5 : Nat) = 5 ∧ (2 : Nat) = 2 ∧ "ab".toList = "ab".toList ∧
    recursiveChunk 5 2 "ab".toList = recursiveChunk 5 2 "ab".toList :=
  ⟨rfl, rfl, rfl,
   (recursive_chunk_deterministic 5 5 2 2 "ab".toList "ab".toList
      rfl rfl rfl).1⟩

/-- Claim C8: malformed inputs — an empty query, an oversized query, or
an oversized document — are rejected with a ValidationError and zero
external (embedding / vector-store / LLM) calls are made. -/
theorem validation_rejected_before_external_calls :
    (∀ (run : List Char → String × Nat) (q : List Char), q = [] →
        (chatEndpoint run q).2 = 0 ∧
        ∃ msg, (chatEndpoint run q).1 =
          Except.error (AppError.validationError msg)) ∧
    (∀ (run : List Char → String × Nat) (q : List Char), 10000 < q.length →
        (chatEndpoint run q).2 = 0 ∧
        ∃ msg, (chatEndpoint run q).1 =
          Except.error (AppError.validationError msg)) ∧
    (∀ (s : Settings) (run : Nat → String × Nat) (fileSize : Nat),
        s.max_file_size_bytes < fileSize →
        (uploadEndpoint s run fileSize).2 = 0 ∧
        ∃ msg, (uploadEndpoint s run fileSize).1 =
          Except.error (AppError.validationError msg)) := by
  refine ⟨?_, ?_, ?_⟩
  · intro run q hq
    subst hq
    exact ⟨rfl, "Empty query", rfl⟩
  · intro run q hq
    have hne : q ≠ [] := by
      intro hnil
      rw [hnil] at hq
      simp at hq
    have hv : chatValidate q =
        Except.error (AppError.validationError "Input too long.") := by
      unfold chatValidate
      rw [if_neg hne]
      unfold sanitize_input
      rw [if_pos hq]
    have he : chatEndpoint run q =
        (Except.error (AppError.validationError "Input too long."), 0) := by
      unfold chatEndpoint
      rw [hv]
    rw [he]
    exact ⟨rfl, "Input too long.", rfl⟩
  · intro s run fileSize hsize
    have he : uploadEndpoint s run fileSize =
        (Except.error (AppError.validationError "File too large"), 0) := by
      unfold uploadEndpoint
      rw [if_pos hsize]
    rw [he]
    exact ⟨rfl, "File too large", rfl⟩

theorem validation_rejected_witness :
    (([] : List Char) = []) ∧
    (chatEndpoint (fun _ => ("", 5)) []).2 = 0 ∧
    ({} : Settings).max_file_size_bytes < 52428801 ∧
    (uploadEndpoint {} (fun _ => ("", 5)) 52428801).2 = 0 :=
  ⟨rfl,
   (validation_rejected_before_external_calls.1 (fun _ => ("", 5)) [] rfl).1,
   by decide,
   (validation_rejected_before_external_calls.2.2 {} (fun _ => ("", 5))
      52428801 (by decide)).1⟩

/-- Claim C9: `get_cors_config` returns the constant configuration
allow_origins = ["*"], allow_credentials = true, allow_methods = ["*"],
allow_headers = ["*"] for every Settings value, so the configuration
applied to the application is identical for any two Settings values (in
particular any two differing only in CORS_ORIGINS) and the configured
origin list never restricts origins. -/
theorem cors_config_ignores_origins :
    (∀ s₁ s₂ : Settings, appCorsConfig s₁ = appCorsConfig s₂) ∧
    ∀ s : Settings,
      (appCorsConfig s).allow_origins = ["*"] ∧
      (appCorsConfig s).allow_credentials = true ∧
      (appCorsConfig s).allow_methods = ["*"] ∧
      (appCorsConfig s).allow_headers = ["*"] :=
  ⟨fun _ _ => rfl, fun _ => ⟨rfl, rfl, rfl, rfl⟩⟩

/-- Claim C10: `sanitize_input` is idempotent on accepted inputs — for
any text within the length bound the call succeeds, a second application
returns the same result, and the result contains only word characters,
whitespace and the allowed punctuation, with no leading or trailing
whitespace. -/
theorem sanitize_input_idempotent (text : List Char) (maxLength : Nat)
    (h : text.length ≤ maxLength) :
    ∃ r, sanitize_input text maxLength = Except.ok r ∧
      sanitize_input r maxLength = Except.ok r ∧
      r.all allowedChar = true ∧
      (∀ c, r.head? = some c → isPythonSpace c = false) ∧
      (∀ c, r.getLast? = some c → isPythonSpace c = false) := by
  have hok : sanitize_input text maxLength =
      Except.ok (pyStrip (text.filter allowedChar)) := by
    unfold sanitize_input
    rw [if_neg (by omega)]
  refine ⟨pyStrip (text.filter allowedChar), hok, ?_, ?_, ?_, ?_⟩
  · have hrallowed :
        ∀ c ∈ pyStrip (text.filter allowedChar), allowedChar c = true :=
      fun c hc => (List.mem_filter.mp (mem_pyStrip hc)).2
    have hlen : (pyStrip (text.filter allowedChar)).length ≤ maxLength :=
      le_trans (le_trans (length_pyStrip_le _)
        (List.filter_sublist _).length_le) h
    unfold sanitize_input
    rw [if_neg (by omega)]
    rw [List.filter_eq_self.mpr hrallowed, pyStrip_idem]
  · exact List.all_eq_true.mpr
      (fun c hc => (List.mem_filter.mp (mem_pyStrip hc)).2)
  · exact fun c hc => pyStrip_head?_not_space hc
  · exact fun c hc => pyStrip_getLast?_not_space hc

theorem sanitize_input_idempotent_witness :
    " hi ".toList.length ≤ 10 ∧
    (∃ r, sanitize_input " hi ".toList 10 = Except.ok r ∧
      sanitize_input r 10 = Except.ok r ∧
      r.all allowedChar = true ∧
      (∀ c, r.head? = some c → isPythonSpace c = false) ∧
      (∀ c, r.getLast? = some c → isPythonSpace c = false)) :=
  ⟨by decide, sanitize_input_idempotent " hi ".toList 10 (by decide)⟩

/- ===================================================================
   Helper lemmas: chunk reconstruction.
   =================================================================== -/

theorem chunk_flatten_drop (size overlap : Nat) (hov : overlap < size) :
    ∀ (n off : Nat) (doc : List Char), doc.length ≤ n →
      ((chunkAux size (size - overlap) off doc).map
          (fun k => k.text.drop overlap)).flatten = doc.drop overlap := by
  intro n
  induction n with
  | zero =>
      intro off doc h
      have : doc = [] := List.length_eq_zero.mp (Nat.le_zero.mp h)
      subst this
      simp [chunkAux_nil]
  | succ n ih =>
      intro off doc h
      by_cases hne : doc = []
      · subst hne
        simp [chunkAux_nil]
      by_cases hle : doc.length ≤ size
      · rw [chunkAux_small _ _ hne hle]
        simp
      · push_neg at hle
        rw [chunkAux_large _ _ hle]
        have hstep : max 1 (size - overlap) = size - overlap := by omega
        simp only [List.map_cons, List.flatten_cons, hstep]
        rw [ih (off + (size - overlap)) (doc.drop (size - overlap))
          (by simp only [List.length_drop]; omega)]
        rw [List.drop_drop]
        have htk : (doc.take size).length = size := by
          rw [List.length_take]
          omega
        have hsum : size - overlap + overlap = size := by omega
        rw [hsum]
        conv_rhs => rw [← List.take_append_drop size doc]
        rw [List.drop_append_of_le_length (by omega)]

/-- Claim C5: concatenating a document's chunks in sequence order, after
removing from each non-first chunk the configured overlap prefix copied
from the end of its predecessor, reconstructs the original document text
with no characters lost. -/
theorem chunk_reconstruction (size overlap : Nat) (hov : overlap < size)
    (doc : List Char) :
    reconstructChunks overlap (recursiveChunk size overlap doc) = doc := by
  unfold recursiveChunk
  by_cases hne : doc = []
  · subst hne
    simp [chunkAux_nil, reconstructChunks]
  by_cases hle : doc.length ≤ size
  · rw [chunkAux_small _ _ hne hle]
    simp [reconstructChunks]
  · push_neg at hle
    rw [chunkAux_large _ _ hle]
    have hstep : max 1 (size - overlap) = size - overlap := by omega
    rw [hstep]
    show List.take size doc ++ _ = doc
    rw [chunk_flatten_drop size overlap hov (doc.drop (size - overlap)).length
      _ _ (le_refl _)]
    rw [List.drop_drop]
    have hsum : size - overlap + overlap = size := by omega
    rw [hsum, List.take_append_drop]

theorem chunk_reconstruction_witness :
    (2 : Nat) < 5 ∧
    reconstructChunks 2 (recursiveChunk 5 2 "abcdefghij".toList) =
      "abcdefghij".toList :=
  ⟨by decide, chunk_reconstruction 5 2 (by decide) "abcdefghij".toList⟩

/-- Claim C6: chunking a 3000-character document with the recursive
strategy, chunk size 1000 and overlap 200, yields exactly 4 chunks whose
start offsets are 0, 800, 1600, 2400 — each start offset advances by at
most 800 characters from the previous one. -/
theorem chunk_3000_scenario (doc : List Char) (hdoc : doc.length = 3000) :
    (recursiveChunk 1000 200 doc).length = 4 ∧
    (recursiveChunk 1000 200 doc).map Chunk.start = [0, 800, 1600, 2400] ∧
    ∀ i (hi : i + 1 < (recursiveChunk 1000 200 doc).length),
      ((recursiveChunk 1000 200 doc).get ⟨i + 1, hi⟩).start ≤
        ((recursiveChunk 1000 200 doc).get ⟨i, Nat.lt_of_succ_lt hi⟩).start
          + 800 := by
  have key : recursiveChunk 1000 200 doc =
      [⟨0, 1000, doc.take 1000⟩,
       ⟨800, 1800, (doc.drop 800).take 1000⟩,
       ⟨1600, 2600, ((doc.drop 800).drop 800).take 1000⟩,
       ⟨2400, 3000, ((doc.drop 800).drop 800).drop 800⟩] := by
    unfold recursiveChunk
    have hs : (1000 : Nat) - 200 = 800 := rfl
    have hm : max 1 800 = 800 := rfl
    have h1 : (doc.drop 800).length = 2200 := by
      simp [hdoc]
    have h2 : ((doc.drop 800).drop 800).length = 1400 := by
      simp [hdoc]
    have h3 : (((doc.drop 800).drop 800).drop 800).length = 600 := by
      simp [hdoc]
    rw [hs]
    rw [chunkAux_large _ _ (by omega)]
    rw [hm]
    rw [chunkAux_large _ _ (by omega)]
    rw [hm]
    rw [chunkAux_large _ _ (by omega)]
    rw [hm]
    rw [chunkAux_small _ _ (by
      intro hnil
      rw [hnil] at h3
      simp at h3) (by omega)]
    rw [h3]
  refine ⟨by rw [key]; rfl, by rw [key]; rfl, ?_⟩
  intro i hi
  rw [key] at hi
  simp only [List.length_cons, List.length_nil] at hi
  match i with
  | 0 => simp [key]
  | 1 => simp [key]
  | 2 => simp [key]
  | n + 3 => omega

theorem chunk_3000_scenario_witness :
    (List.replicate 3000 'a').length = 3000 ∧
    (recursiveChunk 1000 200 (List.replicate 3000 'a')).length = 4 :=
  ⟨List.length_replicate 3000 'a',
   (chunk_3000_scenario (List.replicate 3000 'a')
      (List.length_replicate 3000 'a')).1⟩

/- ===================================================================
   Helper lemmas: MMR greedy selection.
   =================================================================== -/

theorem gtLex_irrefl (p : ℚ × ℚ × Nat) : ¬ gtLex p p := by
  simp [gtLex]

theorem gtLex_trans {p q r : ℚ × ℚ × Nat} (h₁ : gtLex p q)
    (h₂ : gtLex q r) : gtLex p r := by
  rcases h₁ with h₁ | ⟨e₁, h₁⟩
  · rcases h₂ with h₂ | ⟨e₂, h₂⟩
    · exact Or.inl (h₂.trans h₁)
    · exact Or.inl (e₂ ▸ h₁)
  · rcases h₂ with h₂ | ⟨e₂, h₂⟩
    · exact Or.inl (e₁.symm ▸ h₂)
    · refine Or.inr ⟨e₁.trans e₂, ?_⟩
      rcases h₁ with h₁ | ⟨f₁, h₁⟩
      · rcases h₂ with h₂ | ⟨f₂, h₂⟩
        · exact Or.inl (h₂.trans h₁)
        · exact Or.inl (f₂ ▸ h₁)
      · rcases h₂ with h₂ | ⟨f₂, h₂⟩
        · exact Or.inl (f₁.symm ▸ h₂)
        · exact Or.inr ⟨f₁.trans f₂, h₁.trans h₂⟩

theorem gtLex_connex {p q : ℚ × ℚ × Nat} (h₁ : ¬ gtLex p q)
    (h₂ : ¬ gtLex q p) : p = q := by
  simp only [gtLex, not_or, not_and, not_lt] at h₁ h₂
  obtain ⟨h₁a, h₁b⟩ := h₁
  obtain ⟨h₂a, h₂b⟩ := h₂
  have e₁ : p.1 = q.1 := le_antisymm h₁a h₂a
  have e₂ : p.2.1 = q.2.1 :=
    le_antisymm (h₁b e₁).1 (h₂b e₁.symm).1
  have e₃ : p.2.2 = q.2.2 :=
    le_antisymm ((h₂b e₁.symm).2 e₂.symm) ((h₁b e₁).2 e₂)
  exact Prod.ext e₁ (Prod.ext e₂ e₃)

theorem argmaxBy_cons (key : Cand → ℚ × ℚ × Nat) (b x : Cand)
    (xs : List Cand) :
    argmaxBy key b (x :: xs) =
      argmaxBy key (if gtLex (key x) (key b) then x else b) xs := rfl

theorem argmaxBy_mem (key : Cand → ℚ × ℚ × Nat) :
    ∀ (l : List Cand) (b : Cand), argmaxBy key b l ∈ b :: l := by
  intro l
  induction l with
  | nil => intro b; simp [argmaxBy]
  | cons x xs ih =>
      intro b
      rw [argmaxBy_cons]
      by_cases h : gtLex (key x) (key b)
      · rw [if_pos h]
        exact List.mem_cons_of_mem _ (ih x)
      · rw [if_neg h]
        rcases List.mem_cons.mp (ih b) with h' | h'
        · rw [h']
          exact List.mem_cons_self _ _
        · exact List.mem_cons_of_mem _ (List.mem_cons_of_mem _ h')

theorem argmaxBy_opt (key : Cand → ℚ × ℚ × Nat) :
    ∀ (l : List Cand) (b : Cand), ∀ x ∈ b :: l,
      ¬ gtLex (key x) (key (argmaxBy key b l)) := by
  intro l
  induction l with
  | nil =>
      intro b x hx
      rcases List.mem_cons.mp hx with rfl | h
      · exact gtLex_irrefl _
      · simp at h
  | cons y ys ih =>
      intro b x hx
      rw [argmaxBy_cons]
      by_cases h : gtLex (key y) (key b)
      · rw [if_pos h]
        rcases List.mem_cons.mp hx with rfl | hx'
        · intro hc
          exact ih y y (List.mem_cons_self _ _) (gtLex_trans h hc)
        · exact ih y x hx'
      · rw [if_neg h]
        rcases List.mem_cons.mp hx with rfl | hx'
        · exact ih x x (List.mem_cons_self _ _)
        · rcases List.mem_cons.mp hx' with rfl | hx''
          · intro hc
            have hbr : ¬ gtLex (key b) (key (argmaxBy key b ys)) :=
              ih b b (List.mem_cons_self _ _)
            by_cases hby : gtLex (key b) (key x)
            · exact hbr (gtLex_trans hby hc)
            · have : key x = key b := gtLex_connex h hby
              rw [this] at hc
              exact hbr hc
          · exact ih b x (List.mem_cons_of_mem _ hx'')

theorem selectLoop_cons (keyF : List Cand → Cand → ℚ × ℚ × Nat)
    (S : List Cand) (r : Cand) (rs : List Cand) (k : Nat) :
    selectLoop keyF S (r :: rs) (k + 1) =
      argmaxBy (keyF S) r rs ::
        selectLoop keyF (S ++ [argmaxBy (keyF S) r rs])
          ((r :: rs).erase (argmaxBy (keyF S) r rs)) k := rfl

theorem selectLoop_spec (keyF : List Cand → Cand → ℚ × ℚ × Nat) :
    ∀ (k : Nat) (S R : List Cand) (i : Nat) (pick : Cand),
      (selectLoop keyF S R k)[i]? = some pick →
      pick ∈ R.diff ((selectLoop keyF S R k).take i) ∧
      ∀ c ∈ R.diff ((selectLoop keyF S R k).take i),
        ¬ gtLex (keyF (S ++ (selectLoop keyF S R k).take i) c)
            (keyF (S ++ (selectLoop keyF S R k).take i) pick) := by
  intro k
  induction k with
  | zero =>
      intro S R i pick hp
      simp [selectLoop] at hp
  | succ k ih =>
      intro S R i pick hp
      cases R with
      | nil => simp [selectLoop] at hp
      | cons r rs =>
          rw [selectLoop_cons] at hp ⊢
          cases i with
          | zero =>
              simp only [List.getElem?_cons_zero, Option.some.injEq] at hp
              subst hp
              simp only [List.take_zero, List.diff_nil, List.append_nil]
              exact ⟨argmaxBy_mem (keyF S) rs r, argmaxBy_opt (keyF S) rs r⟩
          | succ i =>
              simp only [List.getElem?_cons_succ] at hp
              have h := ih _ _ i pick hp
              simp only [List.append_assoc, List.singleton_append] at h
              simp only [List.take_succ_cons, List.diff_cons]
              exact h

theorem argmaxBy_congr (key₁ key₂ : Cand → ℚ × ℚ × Nat)
    (hk : ∀ c, key₁ c = key₂ c) :
    ∀ (l : List Cand) (b : Cand), argmaxBy key₁ b l = argmaxBy key₂ b l := by
  intro l
  induction l with
  | nil => intro b; rfl
  | cons x xs ih =>
      intro b
      rw [argmaxBy_cons, argmaxBy_cons, hk x, hk b, ih]

theorem selectLoop_congr (keyF₁ keyF₂ : List Cand → Cand → ℚ × ℚ × Nat)
    (hk : ∀ S c, keyF₁ S c = keyF₂ S c) :
    ∀ (k : Nat) (S R : List Cand),
      selectLoop keyF₁ S R k = selectLoop keyF₂ S R k := by
  intro k
  induction k with
  | zero => intro S R; rfl
  | succ k ih =>
      intro S R
      cases R with
      | nil => rfl
      | cons r rs =>
          rw [selectLoop_cons, selectLoop_cons]
          rw [argmaxBy_congr (keyF₁ S) (keyF₂ S) (hk S) rs r, ih]

theorem mmrKey_one (sim : Cand → Cand → ℚ) (S : List Cand) (c : Cand) :
    mmrKey 1 sim S c = (c.relevance, c.relevance, c.rank) := by
  unfold mmrKey
  norm_num

theorem mmrKey_zero (sim : Cand → Cand → ℚ) (S : List Cand) (c : Cand) :
    mmrKey 0 sim S c = (-(maxSimTo sim c S), c.relevance, c.rank) := by
  unfold mmrKey
  norm_num

/-- Claim C1: MMR re-ranking with lambda = 1 returns exactly the plain
top-k-by-relevance ordering (ties by higher relevance, then original
retrieval rank); with lambda = 0 every pick minimizes, over the
still-unselected candidates, the maximum similarity to the
already-selected picks, regardless of relevance, with ties broken by
higher raw relevance and then by original retrieval rank. -/
theorem mmr_lambda_extremes :
    (∀ (sim : Cand → Cand → ℚ) (cands : List Cand) (k : Nat),
        mmr 1 sim cands k = topKByRelevance cands k) ∧
    (∀ (sim : Cand → Cand → ℚ) (cands : List Cand) (k i : Nat)
        (pick : Cand), (mmr 0 sim cands k)[i]? = some pick →
        ∀ c ∈ cands.diff ((mmr 0 sim cands k).take i),
          maxSimTo sim pick ((mmr 0 sim cands k).take i) ≤
              maxSimTo sim c ((mmr 0 sim cands k).take i) ∧
          (maxSimTo sim pick ((mmr 0 sim cands k).take i) =
              maxSimTo sim c ((mmr 0 sim cands k).take i) →
            c.relevance ≤ pick.relevance ∧
            (c.relevance = pick.relevance → pick.rank ≤ c.rank))) := by
  constructor
  · intro sim cands k
    exact selectLoop_congr (mmrKey 1 sim) (fun _ c => (c.relevance, c.relevance, c.rank))
      (fun S c => mmrKey_one sim S c) k [] cands
  · intro sim cands k i pick hp c hc
    have hs := (selectLoop_spec (mmrKey 0 sim) k [] cands i pick hp).2 c hc
    rw [List.nil_append, mmrKey_zero, mmrKey_zero] at hs
    simp only [gtLex, not_or, not_and, not_lt] at hs
    obtain ⟨hs1, hs2⟩ := hs
    refine ⟨by simpa using hs1, ?_⟩
    intro heq
    have hks := hs2 (congrArg Neg.neg heq.symm)
    exact ⟨hks.1, fun hrel => hks.2 hrel⟩

theorem mmr_lambda_extremes_witness :
    mmr 1 (fun _ _ => (0 : ℚ)) [⟨0, 1⟩, ⟨1, 2⟩] 2 =
      topKByRelevance [⟨0, 1⟩, ⟨1, 2⟩] 2 ∧
    (mmr 0 (fun _ _ => (0 : ℚ)) [⟨0, 0⟩] 1)[0]? = some ⟨0, 0⟩ ∧
    (⟨0, 0⟩ : Cand) ∈ ([⟨0, 0⟩] : List Cand).diff
        ((mmr 0 (fun _ _ => (0 : ℚ)) [⟨0, 0⟩] 1).take 0) ∧
    maxSimTo (fun _ _ => (0 : ℚ)) ⟨0, 0⟩
        ((mmr 0 (fun _ _ => (0 : ℚ)) [⟨0, 0⟩] 1).take 0) ≤
      maxSimTo (fun _ _ => (0 : ℚ)) ⟨0, 0⟩
        ((mmr 0 (fun _ _ => (0 : ℚ)) [⟨0, 0⟩] 1).take 0) := by
  have hp : (mmr 0 (fun _ _ => (0 : ℚ)) [⟨0, 0⟩] 1)[0]? = some ⟨0, 0⟩ := rfl
  have hd : (⟨0, 0⟩ : Cand) ∈ ([⟨0, 0⟩] : List Cand).diff
      ((mmr 0 (fun _ _ => (0 : ℚ)) [⟨0, 0⟩] 1).take 0) := by
    simp [List.diff_nil]
  exact ⟨mmr_lambda_extremes.1 (fun _ _ => 0) [⟨0, 1⟩, ⟨1, 2⟩] 2, hp, hd,
    (mmr_lambda_extremes.2 (fun _ _ => 0) [⟨0, 0⟩] 1 0 ⟨0, 0⟩ hp
      ⟨0, 0⟩ hd).1⟩
